import Mathlib

/-!
Shallow embedding of the magnetobremsstrahlung module of SAPyto
(file `magnetobrem.py`): the synchrotron kernel fits (`Rsync`, `SL07`,
`RMAfit`, `RMA`), the per-segment power-law integrator loops of
`j_mb.integrals` and `a_mb.integrals`, and the emissivity/absorption
entry points `j_mb` and `a_mb`.

Real numbers stand for Python floats.  The external quadrature routine
`scipy.integrate.romberg` and the external Whittaker-function evaluator
`misc.whittW` are not part of this repository; they enter the embedding
as function parameters, so every theorem below holds for an arbitrary
quadrature routine and Whittaker evaluator.  The `joblib` parallel map
over frequencies collects results in input order (the documented
behaviour of `Parallel`), hence it is embedded as `List.map`.
-/

noncomputable section

open Real

/-- Modelled from the spec: the module `constants.py` is imported by
`magnetobrem.py` but is not under `src/`.  The spec states that
`nuConst` scales the field strength into the frequency scale
(ν_B₀ = nuConst·B) and that the emissivity and absorption
normalization constants are distinct global physical constants;
physical constants are positive. -/
structure MBConsts where
  nuConst : ℝ
  jmbConst : ℝ
  ambConst : ℝ
  nuConst_pos : 0 < nuConst
  jmbConst_pos : 0 < jmbConst
  ambConst_pos : 0 < ambConst
  jmb_ne_amb : jmbConst ≠ ambConst

/-- Type of the external quadrature routine `scipy.integrate.romberg`:
arguments are the integrand, the lower and upper integration bounds,
`rtol`, `tol` and `divmax`. -/
def Quad : Type := (ℝ → ℝ) → ℝ → ℝ → ℝ → ℝ → ℕ → ℝ

/-- `mbs.Rsync`: R(x) of Crusius and Schlickeiser (1986), with the two
optional asymptotic branches; the exact branch is a combination of four
Whittaker W functions, evaluated by the external `wW`. -/
def Rsync (wW : ℝ → ℝ → ℝ → ℝ) (Xc : ℝ) (asym_low asym_high : Bool) : ℝ :=
  if asym_low then 1.8084180211028021 * Xc ^ ((1 : ℝ) / 3)
  else if asym_high then 0.5 * π * (1 - 11 / (18 * Xc)) * exp (-Xc)
  else 0.5 * π * Xc * (wW 0 (4 / 3) Xc * wW 0 (1 / 3) Xc
      - wW 0.5 (5 / 6) Xc * wW (-0.5) (5 / 6) Xc)

/-- `mbs.SL07`: approximation of Schlickeiser and Lerche (2007). -/
def SL07 (Xc : ℝ) : ℝ :=
  1.5 * Xc ^ ((-2 : ℝ) / 3) / (0.869 + Xc ^ ((1 : ℝ) / 3) * exp Xc)

/-- First middle-range sub-fit `A` inside `mbs.RMAfit`: an exponentiated
degree-5 polynomial in log x. -/
def RMAfitA (x : ℝ) : ℝ :=
  exp (- 0.7871626401625178
       - 0.7050933708504841 * log x
       - 0.3553186929561062 * (log x) ^ 2
       - 0.0650331246186839 * (log x) ^ 3
       - 0.0060901233982264 * (log x) ^ 4
       - 0.0002276461663805 * (log x) ^ 5)

/-- Second middle-range sub-fit `B` inside `mbs.RMAfit`: an exponentiated
degree-5 polynomial in log x. -/
def RMAfitB (x : ℝ) : ℝ :=
  exp (- 0.823645515457065
       - 0.831668613094906 * log x
       - 0.525630345887699 * (log x) ^ 2
       - 0.220393146971054 * (log x) ^ 3
       + 0.016691795295125 * (log x) ^ 4
       - 0.028650695862678 * (log x) ^ 5)

/-- The inner piecewise `theFit` of `mbs.RMAfit`: four sub-fits keyed on
ranges of x with boundaries c1, c2, c3. -/
def theFit (wW : ℝ → ℝ → ℝ → ℝ) (x : ℝ) : ℝ :=
  if x < 3.218090050062573e-4 then Rsync wW x true false
  else if x ≤ 0.650532122717873 then RMAfitA x
  else if x < 15.57990468980456 then RMAfitB x
  else Rsync wW x false true

/-- `mbs.RMAfit`: fit by Rueda-Becerril (2017); zero strictly below the
critical value of x·γ³, the four-range fit at and above it. -/
def RMAfit (wW : ℝ → ℝ → ℝ → ℝ) (Xc g : ℝ) : ℝ :=
  if Xc * g ^ 3 < 0.5 then 0 else theFit wW Xc

/-- `mbs.RMA`: zero on the closed interval x·γ³ ≤ 0.5, `x · SL07 x`
strictly above it. -/
def RMA (Xc g : ℝ) : ℝ :=
  if Xc * g ^ 3 ≤ 0.5 then 0 else Xc * SL07 Xc

/-- Local power-law slope of segment k before clamping, as computed in
`j_mb.integrals` and `a_mb.integrals`. -/
def qraw (g N : ℕ → ℝ) (k : ℕ) : ℝ :=
  - log (N (k + 1) / N k) / log (g (k + 1) / g k)

/-- The sequential slope clamp of `j_mb.integrals`/`a_mb.integrals`. -/
def clamp8 (q : ℝ) : ℝ :=
  if q > 8 then 8 else if q < -8 then -8 else q

/-- `j_mb.f`: emissivity integrand in the variable lg = ln γ, closed over
the harmonic ratio c and the clamped slope q; the kernel is selected by
the `Rsync` boolean flag of `j_mb`. -/
def j_f (wW : ℝ → ℝ → ℝ → ℝ) (Rflag : Bool) (c q lg : ℝ) : ℝ :=
  let g := exp lg
  let Xc := 2 * c / (3 * g ^ 2)
  if Rflag then g ^ (1 - q) * Rsync wW Xc false false
  else g ^ (1 - q) * RMAfit wW Xc g

/-- `a_mb.f`: absorption integrand in the variable lg = ln γ. -/
def a_f (wW : ℝ → ℝ → ℝ → ℝ) (Rflag : Bool) (c q lg : ℝ) : ℝ :=
  let g := exp lg
  let Xc := 2 * c / (3 * g ^ 2)
  if Rflag then g ^ (-q) * Rsync wW Xc false false * (q + 1 + g ^ 2 / (g ^ 2 - 1))
  else g ^ (-q) * RMAfit wW Xc g * (q + 1 + g ^ 2 / (g ^ 2 - 1))

/-- Body of one iteration of the segment loop before the running-sum
floor: if both endpoint densities exceed the 1e-100 floor, add
N_k · (quadrature result) · γ_k^q to the running sum, else leave it
unchanged.  `F` is the integrand closure (`j_mb.f` or `a_mb.f`) as a
function of the clamped slope and of lg. -/
def segPre (rb : Quad) (F : ℝ → ℝ → ℝ) (g N : ℕ → ℝ)
    (rtol tol : ℝ) (divmax : ℕ) (s : ℝ) (k : ℕ) : ℝ :=
  if 1e-100 < N k ∧ 1e-100 < N (k + 1) then
    let q := clamp8 (qraw g N k)
    s + N k * rb (F q) (log (g k)) (log (g (k + 1))) rtol tol divmax * g k ^ q
  else s

/-- One full iteration of the segment loop of `j_mb.integrals` /
`a_mb.integrals`: the segment update followed by the running-sum floor
(reset to exactly 0 below 1e-200). -/
def segStep (rb : Quad) (F : ℝ → ℝ → ℝ) (g N : ℕ → ℝ)
    (rtol tol : ℝ) (divmax : ℕ) (s : ℝ) (k : ℕ) : ℝ :=
  let s1 := segPre rb F g N rtol tol divmax s k
  if s1 < 1e-200 then 0 else s1

/-- `j_mb.integrals`: the per-frequency sum over the K−1 distribution
segments, at harmonic ratio c. -/
def j_integrals (rb : Quad) (wW : ℝ → ℝ → ℝ → ℝ) (Rflag : Bool)
    (K : ℕ) (g N : ℕ → ℝ) (rtol tol : ℝ) (divmax : ℕ) (c : ℝ) : ℝ :=
  (List.range (K - 1)).foldl
    (segStep rb (fun q lg => j_f wW Rflag c q lg) g N rtol tol divmax) 0

/-- `a_mb.integrals`: the per-frequency sum over the K−1 distribution
segments, at harmonic ratio c. -/
def a_integrals (rb : Quad) (wW : ℝ → ℝ → ℝ → ℝ) (Rflag : Bool)
    (K : ℕ) (g N : ℕ → ℝ) (rtol tol : ℝ) (divmax : ℕ) (c : ℝ) : ℝ :=
  (List.range (K - 1)).foldl
    (segStep rb (fun q lg => a_f wW Rflag c q lg) g N rtol tol divmax) 0

/-- `j_mb`: the emissivity entry point.  K is the size of the
Lorentz-factor array g; the parallel map over frequencies preserves
input order, so it is a `List.map`; the result is scaled elementwise by
`jmbConst · nuB`. -/
def j_mb (Cst : MBConsts) (rb : Quad) (wW : ℝ → ℝ → ℝ → ℝ)
    (nu : List ℝ) (K : ℕ) (g N : ℕ → ℝ) (B : ℝ) (Rflag : Bool)
    (rtol tol : ℝ) (divmax : ℕ) : List ℝ :=
  let nuB := Cst.nuConst * B
  nu.map (fun ν =>
    Cst.jmbConst * nuB * j_integrals rb wW Rflag K g N rtol tol divmax (ν / nuB))

/-- `a_mb`: the absorption entry point; like `j_mb` but with the
absorption integrand, scaled by `ambConst · nuB` and divided
elementwise by ν². -/
def a_mb (Cst : MBConsts) (rb : Quad) (wW : ℝ → ℝ → ℝ → ℝ)
    (nu : List ℝ) (K : ℕ) (g N : ℕ → ℝ) (B : ℝ) (Rflag : Bool)
    (rtol tol : ℝ) (divmax : ℕ) : List ℝ :=
  let nuB := Cst.nuConst * B
  nu.map (fun ν =>
    Cst.ambConst * nuB * a_integrals rb wW Rflag K g N rtol tol divmax (ν / nuB) / ν ^ 2)

/-- Index map swapping positions 0 and 1, for the C8 witness. -/
def swap01 : ℕ → ℕ := fun i => 1 - i

/-- Lorentz grid for the C9 witness. -/
def gW : ℕ → ℝ := fun k => (k : ℝ) + 2

/-- A concrete instance of the modelled constants, for witnesses. -/
def Cst0 : MBConsts :=
  ⟨1, 1, 2, one_pos, one_pos, two_pos, by norm_num⟩

/-- A trivial quadrature routine, for witnesses. -/
def rb0 : Quad := fun _ _ _ _ _ _ => 0

/-- A trivial Whittaker evaluator, for witnesses. -/
def wW0 : ℝ → ℝ → ℝ → ℝ := fun _ _ _ => 0

end

noncomputable section

open Real

/- Helper lemmas shared by several claims. -/

lemma segStep_eq (rb : Quad) (F : ℝ → ℝ → ℝ) (g N : ℕ → ℝ)
    (rtol tol : ℝ) (dm : ℕ) (s : ℝ) (k : ℕ) :
    segStep rb F g N rtol tol dm s k =
      if segPre rb F g N rtol tol dm s k < 1e-200 then 0
      else segPre rb F g N rtol tol dm s k := rfl

lemma segStep_floor (rb : Quad) (F : ℝ → ℝ → ℝ) (g N : ℕ → ℝ)
    (rtol tol : ℝ) (dm : ℕ) (s : ℝ) (k : ℕ) :
    segStep rb F g N rtol tol dm s k = 0 ∨
      1e-200 ≤ segStep rb F g N rtol tol dm s k := by
  rw [segStep_eq]
  by_cases h : segPre rb F g N rtol tol dm s k < 1e-200
  · left; rw [if_pos h]
  · right; rw [if_neg h]; exact le_of_not_lt h

lemma foldl_segStep_floor (rb : Quad) (F : ℝ → ℝ → ℝ) (g N : ℕ → ℝ)
    (rtol tol : ℝ) (dm : ℕ) (l : List ℕ) (s : ℝ)
    (hs : s = 0 ∨ 1e-200 ≤ s) :
    l.foldl (segStep rb F g N rtol tol dm) s = 0 ∨
      1e-200 ≤ l.foldl (segStep rb F g N rtol tol dm) s := by
  induction l generalizing s with
  | nil => exact hs
  | cons k t ih =>
      exact ih (segStep rb F g N rtol tol dm s k)
        (segStep_floor rb F g N rtol tol dm s k)

lemma floor_nonneg {v : ℝ} (h : v = 0 ∨ 1e-200 ≤ v) : 0 ≤ v := by
  rcases h with h | h
  · rw [h]
  · have : (0 : ℝ) < 1e-200 := by norm_num
    linarith

lemma j_integrals_floor (rb : Quad) (wW : ℝ → ℝ → ℝ → ℝ) (Rflag : Bool)
    (K : ℕ) (g N : ℕ → ℝ) (rtol tol : ℝ) (dm : ℕ) (c : ℝ) :
    j_integrals rb wW Rflag K g N rtol tol dm c = 0 ∨
      1e-200 ≤ j_integrals rb wW Rflag K g N rtol tol dm c :=
  foldl_segStep_floor _ _ _ _ _ _ _ _ _ (Or.inl rfl)

lemma a_integrals_floor (rb : Quad) (wW : ℝ → ℝ → ℝ → ℝ) (Rflag : Bool)
    (K : ℕ) (g N : ℕ → ℝ) (rtol tol : ℝ) (dm : ℕ) (c : ℝ) :
    a_integrals rb wW Rflag K g N rtol tol dm c = 0 ∨
      1e-200 ≤ a_integrals rb wW Rflag K g N rtol tol dm c :=
  foldl_segStep_floor _ _ _ _ _ _ _ _ _ (Or.inl rfl)

lemma getD_map_real (f : ℝ → ℝ) (l : List ℝ) (i : ℕ) (h : i < l.length) :
    (l.map f).getD i 0 = f (l.getD i 0) := by
  rw [List.getD_eq_getElem _ _ (by simpa using h), List.getD_eq_getElem _ _ h,
    List.getElem_map]

lemma theFit_pos (wW : ℝ → ℝ → ℝ → ℝ) (x : ℝ) (hx : 0 < x) :
    0 < theFit wW x := by
  unfold theFit
  split_ifs with h1 h2 h3
  · have : Rsync wW x true false = 1.8084180211028021 * x ^ ((1 : ℝ) / 3) := rfl
    rw [this]
    exact mul_pos (by norm_num) (rpow_pos_of_pos hx _)
  · exact exp_pos _
  · exact exp_pos _
  · have hx3 : (15.57990468980456 : ℝ) ≤ x := not_lt.mp h3
    have : Rsync wW x false true = 0.5 * π * (1 - 11 / (18 * x)) * exp (-x) := rfl
    rw [this]
    have h18 : (0 : ℝ) < 18 * x := by linarith
    have hlt : 11 / (18 * x) < 1 := by
      rw [div_lt_one h18]; linarith
    exact mul_pos (mul_pos (mul_pos (by norm_num) pi_pos) (by linarith)) (exp_pos _)

/-- C1: for every frequency expressed as c = ν/ν_B₀ and every non-skipped
segment with clamped slope q, the emissivity entry point hands the
quadrature routine the integrand ℓ ↦ g^(1−q)·Kernel(x_c(g)) and the
absorption entry point the integrand ℓ ↦ g^(−q)·Kernel(x_c(g))·(q + 1 +
g²/(g²−1)), with g = exp ℓ and x_c(g) = 2c/(3g²), over ℓ from ln γ_k to
ln γ_{k+1}, the kernel being `Rsync` or `RMAfit` according to the mode
flag. -/
theorem C1_integrands (wW : ℝ → ℝ → ℝ → ℝ) (rb : Quad) (Rflag : Bool)
    (g N : ℕ → ℝ) (rtol tol c s : ℝ) (dm k : ℕ)
    (hk : 1e-100 < N k ∧ 1e-100 < N (k + 1)) :
    (∀ q lg : ℝ, j_f wW false c q lg
        = exp lg ^ (1 - q) * RMAfit wW (2 * c / (3 * exp lg ^ 2)) (exp lg)) ∧
    (∀ q lg : ℝ, j_f wW true c q lg
        = exp lg ^ (1 - q) * Rsync wW (2 * c / (3 * exp lg ^ 2)) false false) ∧
    (∀ q lg : ℝ, a_f wW false c q lg
        = exp lg ^ (-q) * RMAfit wW (2 * c / (3 * exp lg ^ 2)) (exp lg)
            * (q + 1 + exp lg ^ 2 / (exp lg ^ 2 - 1))) ∧
    (∀ q lg : ℝ, a_f wW true c q lg
        = exp lg ^ (-q) * Rsync wW (2 * c / (3 * exp lg ^ 2)) false false
            * (q + 1 + exp lg ^ 2 / (exp lg ^ 2 - 1))) ∧
    segPre rb (fun q lg => j_f wW Rflag c q lg) g N rtol tol dm s k
      = s + N k * rb (fun lg => j_f wW Rflag c (clamp8 (qraw g N k)) lg)
            (log (g k)) (log (g (k + 1))) rtol tol dm
          * g k ^ clamp8 (qraw g N k) ∧
    segPre rb (fun q lg => a_f wW Rflag c q lg) g N rtol tol dm s k
      = s + N k * rb (fun lg => a_f wW Rflag c (clamp8 (qraw g N k)) lg)
            (log (g k)) (log (g (k + 1))) rtol tol dm
          * g k ^ clamp8 (qraw g N k) := by
  refine ⟨fun q lg => rfl, fun q lg => rfl, fun q lg => rfl, fun q lg => rfl, ?_, ?_⟩
  · rw [segPre, if_pos hk]
  · rw [segPre, if_pos hk]

/-- C1 witness: instantiation at a concrete non-skipped segment. -/
theorem C1_integrands_witness :
    ((1e-100 : ℝ) < 1 ∧ (1e-100 : ℝ) < 1) ∧
    segPre rb0 (fun q lg => j_f wW0 false 1 q lg) (fun _ => 2) (fun _ => 1) 0 0 0 0 0
      = 0 + 1 * rb0 (fun lg => j_f wW0 false 1
            (clamp8 (qraw (fun _ => 2) (fun _ => 1) 0)) lg)
          (log 2) (log 2) 0 0 0
        * (2 : ℝ) ^ clamp8 (qraw (fun _ => 2) (fun _ => 1) 0) :=
  ⟨⟨by norm_num, by norm_num⟩,
    (C1_integrands wW0 rb0 false (fun _ => 2) (fun _ => 1) 0 0 1 0 0 0
      ⟨by norm_num, by norm_num⟩).2.2.2.2.1⟩

/-- C2: for every non-skipped segment k of both computations, the slope
used in the integrand is q_k = −ln(N_{k+1}/N_k)/ln(γ_{k+1}/γ_k) clamped
to [−8, 8] (identity inside the range, 8 above, −8 below), and the
contribution added to the running sum is N_k · (quadrature result) ·
γ_k^{q_k}. -/
theorem C2_slope_and_contribution (wW : ℝ → ℝ → ℝ → ℝ) (rb : Quad)
    (Rflag : Bool) (g N : ℕ → ℝ) (rtol tol c s : ℝ) (dm k : ℕ)
    (hk : 1e-100 < N k ∧ 1e-100 < N (k + 1)) :
    qraw g N k = - log (N (k + 1) / N k) / log (g (k + 1) / g k) ∧
    (-8 ≤ qraw g N k ∧ qraw g N k ≤ 8 → clamp8 (qraw g N k) = qraw g N k) ∧
    (8 < qraw g N k → clamp8 (qraw g N k) = 8) ∧
    (qraw g N k < -8 → clamp8 (qraw g N k) = -8) ∧
    segPre rb (fun q lg => j_f wW Rflag c q lg) g N rtol tol dm s k - s
      = N k * rb (fun lg => j_f wW Rflag c (clamp8 (qraw g N k)) lg)
            (log (g k)) (log (g (k + 1))) rtol tol dm
          * g k ^ clamp8 (qraw g N k) ∧
    segPre rb (fun q lg => a_f wW Rflag c q lg) g N rtol tol dm s k - s
      = N k * rb (fun lg => a_f wW Rflag c (clamp8 (qraw g N k)) lg)
            (log (g k)) (log (g (k + 1))) rtol tol dm
          * g k ^ clamp8 (qraw g N k) := by
  refine ⟨rfl, ?_, ?_, ?_, ?_, ?_⟩
  · rintro ⟨hlo, hhi⟩
    rw [clamp8, if_neg (not_lt.mpr hhi), if_neg (not_lt.mpr hlo)]
  · intro h
    rw [clamp8, if_pos h]
  · intro h
    rw [clamp8, if_neg (by linarith : ¬ qraw g N k > 8), if_pos h]
  · rw [segPre, if_pos hk]; ring
  · rw [segPre, if_pos hk]; ring

/-- C2 witness: instantiation at a concrete non-skipped segment with
in-range slope. -/
theorem C2_slope_witness :
    (-8 ≤ qraw (fun _ => 2) (fun _ => 1) 0 ∧ qraw (fun _ => 2) (fun _ => 1) 0 ≤ 8) ∧
    clamp8 (qraw (fun _ => 2) (fun _ => 1) 0) = qraw (fun _ => 2) (fun _ => 1) 0 := by
  have hq : qraw (fun _ => 2) (fun _ => 1) 0 = 0 := by
    rw [qraw]; norm_num
  refine ⟨⟨by rw [hq]; norm_num, by rw [hq]; norm_num⟩, ?_⟩
  exact (C2_slope_and_contribution wW0 rb0 false (fun _ => 2) (fun _ => 1) 0 0 0 0 0 0
    ⟨by norm_num, by norm_num⟩).2.1 ⟨by rw [hq]; norm_num, by rw [hq]; norm_num⟩

/-- C3 counterexample: on a one-point Lorentz grid, both entry points
silently return a result array (here the zero array) instead of
reporting an error before integration; no validation exists in either
function. -/
theorem C3_counterexample :
    j_mb Cst0 rb0 wW0 [1] 1 (fun _ => 10) (fun _ => 1) 1 false 0 0 0 = [0] ∧
    a_mb Cst0 rb0 wW0 [1] 1 (fun _ => 10) (fun _ => 1) 1 false 0 0 0 = [0] := by
  constructor
  · rw [j_mb]
    simp [j_integrals, Cst0]
  · rw [a_mb]
    simp [a_integrals, Cst0]

/-- C3 amended: neither entry point validates the grid; with fewer than
2 points the segment loop is empty and the entry points silently return
the all-zero array of the same length as the frequency input
(non-increasing γ values are likewise not checked). -/
theorem C3_no_grid_validation (Cst : MBConsts) (rb : Quad)
    (wW : ℝ → ℝ → ℝ → ℝ) (nu : List ℝ) (K : ℕ) (g N : ℕ → ℝ) (B : ℝ)
    (Rflag : Bool) (rtol tol : ℝ) (dm : ℕ) (hK : K < 2) :
    j_mb Cst rb wW nu K g N B Rflag rtol tol dm = nu.map (fun _ => 0) ∧
    a_mb Cst rb wW nu K g N B Rflag rtol tol dm = nu.map (fun _ => 0) ∧
    (j_mb Cst rb wW nu K g N B Rflag rtol tol dm).length = nu.length ∧
    (a_mb Cst rb wW nu K g N B Rflag rtol tol dm).length = nu.length := by
  have h0 : K - 1 = 0 := by omega
  have hj : ∀ c : ℝ, j_integrals rb wW Rflag K g N rtol tol dm c = 0 := by
    intro c; rw [j_integrals, h0]; rfl
  have ha : ∀ c : ℝ, a_integrals rb wW Rflag K g N rtol tol dm c = 0 := by
    intro c; rw [a_integrals, h0]; rfl
  refine ⟨?_, ?_, ?_, ?_⟩
  · rw [j_mb]; exact List.map_congr_left (fun ν _ => by rw [hj]; ring)
  · rw [a_mb]; exact List.map_congr_left (fun ν _ => by rw [ha]; simp)
  · rw [j_mb]; exact List.length_map _ _
  · rw [a_mb]; exact List.length_map _ _

/-- C3 amended witness: a one-point grid, concrete inputs. -/
theorem C3_no_grid_validation_witness :
    1 < 2 ∧
    j_mb Cst0 rb0 wW0 [2] 1 (fun _ => 10) (fun _ => 1) 1 false 0 0 0
      = [(2 : ℝ)].map (fun _ => 0) :=
  ⟨by norm_num,
    (C3_no_grid_validation Cst0 rb0 wW0 [2] 1 (fun _ => 10) (fun _ => 1) 1 false 0 0 0
      (by norm_num)).1⟩

/-- C4: a segment with an endpoint density below the 1e-100 floor is
skipped in both computations: the pre-floor sum is unchanged, the full
step leaves a valid running sum unchanged (contribution exactly 0), and
the step never consults the quadrature routine (its value is the same
for any two quadrature routines); the statement is generic in the
integrand closure F, covering both `j_mb.f` and `a_mb.f`. -/
theorem C4_underflow_skip (rb rb' : Quad) (F : ℝ → ℝ → ℝ) (g N : ℕ → ℝ)
    (rtol tol : ℝ) (dm : ℕ) (s : ℝ) (k : ℕ)
    (hskip : N k < 1e-100 ∨ N (k + 1) < 1e-100) :
    segPre rb F g N rtol tol dm s k = s ∧
    (s = 0 ∨ 1e-200 ≤ s → segStep rb F g N rtol tol dm s k = s) ∧
    segStep rb F g N rtol tol dm s k = segStep rb' F g N rtol tol dm s k := by
  have hguard : ¬ (1e-100 < N k ∧ 1e-100 < N (k + 1)) := by
    rintro ⟨h1, h2⟩
    rcases hskip with h | h
    · exact absurd h1 (not_lt.mpr (le_of_lt h))
    · exact absurd h2 (not_lt.mpr (le_of_lt h))
  have hpre : segPre rb F g N rtol tol dm s k = s := by
    rw [segPre, if_neg hguard]
  have hpre' : segPre rb' F g N rtol tol dm s k = s := by
    rw [segPre, if_neg hguard]
  refine ⟨hpre, ?_, ?_⟩
  · rintro (hs | hs)
    · rw [segStep_eq, hpre, hs, if_pos (by norm_num : (0 : ℝ) < 1e-200)]
    · rw [segStep_eq, hpre, if_neg (not_lt.mpr hs)]
  · rw [segStep_eq, segStep_eq, hpre, hpre']

/-- C4 witness: concrete skipped segment (densities are 0, below the
floor) with running sum 0. -/
theorem C4_underflow_skip_witness :
    ((0 : ℝ) < 1e-100 ∨ (0 : ℝ) < 1e-100) ∧
    segPre rb0 (fun _ _ => 0) (fun _ => 2) (fun _ => 0) 0 0 0 0 0 = 0 :=
  ⟨Or.inl (by norm_num),
    (C4_underflow_skip rb0 rb0 (fun _ _ => 0) (fun _ => 2) (fun _ => 0) 0 0 0 0 0
      (Or.inl (by norm_num))).1⟩

/-- C5: in the per-frequency loop (generic integrand closure F, covering
both the emissivity and the absorption loop), the running sum is reset
to exactly 0 whenever the post-segment value falls below 1e-200, so
after every iteration — and in particular at the end of the loop, which
is the value of `j_mb.integrals` / `a_mb.integrals` — the partial sum is
either exactly 0 or at least 1e-200, never in (0, 1e-200) and never
negative. -/
theorem C5_sum_floor_invariant (rb : Quad) (wW : ℝ → ℝ → ℝ → ℝ)
    (Rflag : Bool) (K : ℕ) (g N : ℕ → ℝ) (rtol tol : ℝ) (dm : ℕ) :
    (∀ (F : ℝ → ℝ → ℝ) (s : ℝ) (k : ℕ),
        segPre rb F g N rtol tol dm s k < 1e-200 →
          segStep rb F g N rtol tol dm s k = 0) ∧
    (∀ (F : ℝ → ℝ → ℝ) (s : ℝ) (k : ℕ),
        segStep rb F g N rtol tol dm s k = 0 ∨
          1e-200 ≤ segStep rb F g N rtol tol dm s k) ∧
    (∀ (F : ℝ → ℝ → ℝ) (m : ℕ),
        (List.range m).foldl (segStep rb F g N rtol tol dm) 0 = 0 ∨
          1e-200 ≤ (List.range m).foldl (segStep rb F g N rtol tol dm) 0) ∧
    (∀ (F : ℝ → ℝ → ℝ) (m : ℕ),
        ¬ (0 < (List.range m).foldl (segStep rb F g N rtol tol dm) 0 ∧
            (List.range m).foldl (segStep rb F g N rtol tol dm) 0 < 1e-200) ∧
        0 ≤ (List.range m).foldl (segStep rb F g N rtol tol dm) 0) ∧
    (∀ c : ℝ, j_integrals rb wW Rflag K g N rtol tol dm c = 0 ∨
        1e-200 ≤ j_integrals rb wW Rflag K g N rtol tol dm c) ∧
    (∀ c : ℝ, a_integrals rb wW Rflag K g N rtol tol dm c = 0 ∨
        1e-200 ≤ a_integrals rb wW Rflag K g N rtol tol dm c) := by
  refine ⟨?_, ?_, ?_, ?_, ?_, ?_⟩
  · intro F s k h
    rw [segStep_eq, if_pos h]
  · intro F s k
    exact segStep_floor rb F g N rtol tol dm s k
  · intro F m
    exact foldl_segStep_floor rb F g N rtol tol dm _ 0 (Or.inl rfl)
  · intro F m
    have h := foldl_segStep_floor rb F g N rtol tol dm (List.range m) 0 (Or.inl rfl)
    constructor
    · rintro ⟨hpos, hlt⟩
      rcases h with h | h
      · exact absurd h (ne_of_gt hpos)
      · exact absurd hlt (not_lt.mpr h)
    · exact floor_nonneg h
  · intro c
    exact j_integrals_floor rb wW Rflag K g N rtol tol dm c
  · intro c
    exact a_integrals_floor rb wW Rflag K g N rtol tol dm c

/-- C5 witness: concrete instantiation; the reset fires on an empty
(below-floor) segment with running sum 0. -/
theorem C5_sum_floor_witness :
    segStep rb0 (fun _ _ => 0) (fun _ => 2) (fun _ => 0) 0 0 0 0 0 = 0 :=
  (C5_sum_floor_invariant rb0 wW0 false 2 (fun _ => 2) (fun _ => 0) 0 0 0).1
    (fun _ _ => 0) 0 0
    (by rw [segPre]; norm_num)

/-- C6: the i-th emissivity output is jmbConst · ν_B · S_i and the i-th
absorption output is ambConst · ν_B · S_i / ν_i², with ν_B = nuConst·B
and S_i the per-frequency integral sum at harmonic ratio ν_i/ν_B; only
absorption divides by ν², and the two normalization constants are
distinct. -/
theorem C6_normalization (Cst : MBConsts) (rb : Quad) (wW : ℝ → ℝ → ℝ → ℝ)
    (nu : List ℝ) (K : ℕ) (g N : ℕ → ℝ) (B : ℝ) (Rflag : Bool)
    (rtol tol : ℝ) (dm : ℕ) (i : ℕ) (hi : i < nu.length) :
    (j_mb Cst rb wW nu K g N B Rflag rtol tol dm).getD i 0
      = Cst.jmbConst * (Cst.nuConst * B)
          * j_integrals rb wW Rflag K g N rtol tol dm
              (nu.getD i 0 / (Cst.nuConst * B)) ∧
    (a_mb Cst rb wW nu K g N B Rflag rtol tol dm).getD i 0
      = Cst.ambConst * (Cst.nuConst * B)
          * a_integrals rb wW Rflag K g N rtol tol dm
              (nu.getD i 0 / (Cst.nuConst * B))
          / (nu.getD i 0) ^ 2 ∧
    Cst.jmbConst ≠ Cst.ambConst := by
  refine ⟨?_, ?_, Cst.jmb_ne_amb⟩
  · rw [j_mb]
    exact getD_map_real _ nu i hi
  · rw [a_mb]
    exact getD_map_real _ nu i hi

/-- C6 witness: concrete input with a singleton frequency list. -/
theorem C6_normalization_witness :
    0 < [(3 : ℝ)].length ∧
    (j_mb Cst0 rb0 wW0 [3] 2 (fun _ => 2) (fun _ => 1) 1 false 0 0 0).getD 0 0
      = Cst0.jmbConst * (Cst0.nuConst * 1)
          * j_integrals rb0 wW0 false 2 (fun _ => 2) (fun _ => 1) 0 0 0
              ([(3 : ℝ)].getD 0 0 / (Cst0.nuConst * 1)) :=
  ⟨by norm_num,
    (C6_normalization Cst0 rb0 wW0 [3] 2 (fun _ => 2) (fun _ => 1) 1 false 0 0 0 0
      (by norm_num)).1⟩

/-- C8: the per-frequency map has no cross-talk: reindexing the
frequency list by any index map reindexes the output identically, the
i-th output equals the output computed from the singleton list holding
frequency i alone, and permuted inputs give permuted outputs; this
holds for both entry points. -/
theorem C8_order_invariance (Cst : MBConsts) (rb : Quad)
    (wW : ℝ → ℝ → ℝ → ℝ) (nu : List ℝ) (K : ℕ) (g N : ℕ → ℝ) (B : ℝ)
    (Rflag : Bool) (rtol tol : ℝ) (dm : ℕ) (σ : ℕ → ℕ) (m : ℕ)
    (hσ : ∀ j, j < m → σ j < nu.length) :
    j_mb Cst rb wW (List.ofFn (fun j : Fin m => nu.getD (σ j) 0)) K g N B
        Rflag rtol tol dm
      = List.ofFn (fun j : Fin m =>
          (j_mb Cst rb wW nu K g N B Rflag rtol tol dm).getD (σ j) 0) ∧
    a_mb Cst rb wW (List.ofFn (fun j : Fin m => nu.getD (σ j) 0)) K g N B
        Rflag rtol tol dm
      = List.ofFn (fun j : Fin m =>
          (a_mb Cst rb wW nu K g N B Rflag rtol tol dm).getD (σ j) 0) ∧
    (∀ i, i < nu.length →
      (j_mb Cst rb wW nu K g N B Rflag rtol tol dm).getD i 0
        = (j_mb Cst rb wW [nu.getD i 0] K g N B Rflag rtol tol dm).getD 0 0) ∧
    (∀ i, i < nu.length →
      (a_mb Cst rb wW nu K g N B Rflag rtol tol dm).getD i 0
        = (a_mb Cst rb wW [nu.getD i 0] K g N B Rflag rtol tol dm).getD 0 0) ∧
    (∀ nu' : List ℝ, nu.Perm nu' →
      (j_mb Cst rb wW nu K g N B Rflag rtol tol dm).Perm
        (j_mb Cst rb wW nu' K g N B Rflag rtol tol dm)) ∧
    (∀ nu' : List ℝ, nu.Perm nu' →
      (a_mb Cst rb wW nu K g N B Rflag rtol tol dm).Perm
        (a_mb Cst rb wW nu' K g N B Rflag rtol tol dm)) := by
  refine ⟨?_, ?_, ?_, ?_, ?_, ?_⟩
  · rw [j_mb, j_mb, List.map_ofFn]
    refine congrArg _ (funext fun j => ?_)
    simp only [Function.comp_apply]
    exact (getD_map_real
      (fun ν => Cst.jmbConst * (Cst.nuConst * B)
        * j_integrals rb wW Rflag K g N rtol tol dm (ν / (Cst.nuConst * B)))
      nu (σ j) (hσ j j.isLt)).symm
  · rw [a_mb, a_mb, List.map_ofFn]
    refine congrArg _ (funext fun j => ?_)
    simp only [Function.comp_apply]
    exact (getD_map_real
      (fun ν => Cst.ambConst * (Cst.nuConst * B)
        * a_integrals rb wW Rflag K g N rtol tol dm (ν / (Cst.nuConst * B)) / ν ^ 2)
      nu (σ j) (hσ j j.isLt)).symm
  · intro i hi
    rw [j_mb, j_mb]
    exact getD_map_real _ nu i hi
  · intro i hi
    rw [a_mb, a_mb]
    exact getD_map_real _ nu i hi
  · intro nu' hp
    rw [j_mb, j_mb]
    exact hp.map _
  · intro nu' hp
    rw [a_mb, a_mb]
    exact hp.map _

/-- C8 witness: swapping a two-element frequency list. -/
theorem C8_order_invariance_witness :
    (∀ j, j < 2 → swap01 j < [(3 : ℝ), 4].length) ∧
    j_mb Cst0 rb0 wW0
        (List.ofFn (fun j : Fin 2 => [(3 : ℝ), 4].getD (swap01 j) 0))
        2 (fun _ => 2) (fun _ => 1) 1 false 0 0 0
      = List.ofFn (fun j : Fin 2 =>
          (j_mb Cst0 rb0 wW0 [(3 : ℝ), 4] 2 (fun _ => 2) (fun _ => 1) 1 false 0 0 0).getD
            (swap01 j) 0) :=
  ⟨fun j hj => by simp [swap01]; omega,
    (C8_order_invariance Cst0 rb0 wW0 [(3 : ℝ), 4] 2 (fun _ => 2) (fun _ => 1) 1 false
      0 0 0 swap01 2 (fun j hj => by simp [swap01]; omega)).1⟩

/-- C7: for x > 0 and any Lorentz factor γ, `RMAfit` returns exactly 0
when x·γ³ is strictly below 0.5; at and above it, it returns the
four-range fit: the asymptotic-low form below 3.218090050062573e-4, the
two exponentiated degree-5 log-polynomial sub-fits in the two middle
ranges, and the asymptotic-high form at and above 15.57990468980456. -/
theorem C7_RMAfit_cases (wW : ℝ → ℝ → ℝ → ℝ) (x g : ℝ) (hx : 0 < x) :
    (x * g ^ 3 < 0.5 → RMAfit wW x g = 0) ∧
    (0.5 ≤ x * g ^ 3 → RMAfit wW x g = theFit wW x) ∧
    (x < 3.218090050062573e-4 →
        theFit wW x = 1.8084180211028021 * x ^ ((1 : ℝ) / 3)) ∧
    (3.218090050062573e-4 ≤ x ∧ x ≤ 0.650532122717873 →
        theFit wW x = RMAfitA x) ∧
    (0.650532122717873 < x ∧ x < 15.57990468980456 →
        theFit wW x = RMAfitB x) ∧
    (15.57990468980456 ≤ x →
        theFit wW x = 0.5 * π * (1 - 11 / (18 * x)) * exp (-x)) := by
  refine ⟨?_, ?_, ?_, ?_, ?_, ?_⟩
  · intro h
    rw [RMAfit, if_pos h]
  · intro h
    rw [RMAfit, if_neg (not_lt.mpr h)]
  · intro h
    rw [theFit, if_pos h]
    rfl
  · rintro ⟨h1, h2⟩
    rw [theFit, if_neg (not_lt.mpr h1), if_pos h2]
  · rintro ⟨h1, h2⟩
    rw [theFit, if_neg (by linarith : ¬ x < 3.218090050062573e-4),
      if_neg (not_le.mpr h1), if_pos h2]
  · intro h
    rw [theFit, if_neg (by linarith : ¬ x < 3.218090050062573e-4),
      if_neg (by linarith : ¬ x ≤ 0.650532122717873),
      if_neg (not_lt.mpr h)]
    rfl

/-- C7 witness: a concrete point in the zero region and the first fit
range. -/
theorem C7_RMAfit_witness :
    (0 : ℝ) < 1e-5 ∧ ((1e-5 : ℝ) * 1 ^ 3 < 0.5 → RMAfit wW0 1e-5 1 = 0) :=
  ⟨by norm_num, (C7_RMAfit_cases wW0 1e-5 1 (by norm_num)).1⟩

/-- C10: the two fit kernels treat the boundary x·γ³ = 0.5 differently:
`RMAfit` evaluates the fit there (a strictly positive value for x > 0),
while `RMA` returns exactly 0; in general `RMA` vanishes on the closed
region x·γ³ ≤ 0.5 and `RMAfit` only on the open region x·γ³ < 0.5. -/
theorem C10_boundary_asymmetry (wW : ℝ → ℝ → ℝ → ℝ) (x g : ℝ)
    (hx : 0 < x) (hb : x * g ^ 3 = 0.5) :
    RMAfit wW x g = theFit wW x ∧ 0 < theFit wW x ∧ RMA x g = 0 ∧
    (∀ y γ : ℝ,
      (y * γ ^ 3 < 0.5 → RMAfit wW y γ = 0) ∧
      (y * γ ^ 3 ≤ 0.5 → RMA y γ = 0) ∧
      (0.5 < y * γ ^ 3 → RMA y γ = y * SL07 y) ∧
      (0.5 ≤ y * γ ^ 3 → RMAfit wW y γ = theFit wW y)) := by
  refine ⟨?_, theFit_pos wW x hx, ?_, ?_⟩
  · rw [RMAfit, if_neg (by rw [hb]; exact lt_irrefl _)]
  · rw [RMA, if_pos (le_of_eq hb)]
  · intro y γ
    refine ⟨?_, ?_, ?_, ?_⟩
    · intro h
      rw [RMAfit, if_pos h]
    · intro h
      rw [RMA, if_pos h]
    · intro h
      rw [RMA, if_neg (not_le.mpr h)]
    · intro h
      rw [RMAfit, if_neg (not_lt.mpr h)]

/-- C10 witness: x = 1/2, γ = 1 sits exactly on the boundary. -/
theorem C10_boundary_witness :
    ((0 : ℝ) < 1 / 2 ∧ (1 / 2 : ℝ) * 1 ^ 3 = 0.5) ∧
    (RMAfit wW0 (1 / 2) 1 = theFit wW0 (1 / 2) ∧ 0 < theFit wW0 (1 / 2) ∧
      RMA (1 / 2) 1 = 0 ∧
      (∀ y γ : ℝ,
        (y * γ ^ 3 < 0.5 → RMAfit wW0 y γ = 0) ∧
        (y * γ ^ 3 ≤ 0.5 → RMA y γ = 0) ∧
        (0.5 < y * γ ^ 3 → RMA y γ = y * SL07 y) ∧
        (0.5 ≤ y * γ ^ 3 → RMAfit wW0 y γ = theFit wW0 y))) :=
  ⟨⟨by norm_num, by norm_num⟩,
    C10_boundary_asymmetry wW0 (1 / 2) 1 (by norm_num) (by norm_num)⟩

/-- C9: for every valid input (positive frequencies, at least 2 strictly
increasing Lorentz factors all above 1, non-negative densities,
positive field), every entry of both output arrays is non-negative (in
this real-valued embedding no value is NaN), and the computation always
yields the full-length array: per-segment edge cases never abort it. -/
theorem C9_sane_output (Cst : MBConsts) (rb : Quad) (wW : ℝ → ℝ → ℝ → ℝ)
    (nu : List ℝ) (K : ℕ) (g N : ℕ → ℝ) (B : ℝ) (Rflag : Bool)
    (rtol tol : ℝ) (dm : ℕ)
    (hν : ∀ ν ∈ nu, 0 < ν) (hK : 2 ≤ K)
    (hg1 : ∀ k, k < K → 1 < g k)
    (hmono : ∀ k, k + 1 < K → g k < g (k + 1))
    (hN : ∀ k, k < K → 0 ≤ N k) (hB : 0 < B) :
    (∀ x ∈ j_mb Cst rb wW nu K g N B Rflag rtol tol dm, 0 ≤ x) ∧
    (∀ x ∈ a_mb Cst rb wW nu K g N B Rflag rtol tol dm, 0 ≤ x) ∧
    (j_mb Cst rb wW nu K g N B Rflag rtol tol dm).length = nu.length ∧
    (a_mb Cst rb wW nu K g N B Rflag rtol tol dm).length = nu.length := by
  have hnuB : 0 ≤ Cst.nuConst * B :=
    le_of_lt (mul_pos Cst.nuConst_pos hB)
  refine ⟨?_, ?_, ?_, ?_⟩
  · intro x hx
    rw [j_mb] at hx
    obtain ⟨ν, hmem, rfl⟩ := List.mem_map.1 hx
    exact mul_nonneg (mul_nonneg (le_of_lt Cst.jmbConst_pos) hnuB)
      (floor_nonneg (j_integrals_floor rb wW Rflag K g N rtol tol dm _))
  · intro x hx
    rw [a_mb] at hx
    obtain ⟨ν, hmem, rfl⟩ := List.mem_map.1 hx
    exact div_nonneg
      (mul_nonneg (mul_nonneg (le_of_lt Cst.ambConst_pos) hnuB)
        (floor_nonneg (a_integrals_floor rb wW Rflag K g N rtol tol dm _)))
      (sq_nonneg ν)
  · rw [j_mb]; exact List.length_map _ _
  · rw [a_mb]; exact List.length_map _ _

/-- C9 witness: a concrete valid input. -/
theorem C9_sane_output_witness :
    ((0 : ℝ) < 1 ∧ 1 < gW 0 ∧ gW 0 < gW 1) ∧
    (j_mb Cst0 rb0 wW0 [1] 2 gW (fun _ => 1) 1 false 0 0 0).length
      = [(1 : ℝ)].length :=
  ⟨⟨by norm_num, by norm_num [gW], by norm_num [gW]⟩,
    (C9_sane_output Cst0 rb0 wW0 [1] 2 gW (fun _ => 1) 1 false 0 0 0
      (fun ν hν => by rw [List.mem_singleton] at hν; rw [hν]; norm_num)
      (by norm_num)
      (fun k hk => by
        have : (0 : ℝ) ≤ (k : ℝ) := Nat.cast_nonneg k
        simp only [gW]; linarith)
      (fun k hk => by
        simp only [gW]; push_cast; linarith)
      (fun k hk => by norm_num)
      (by norm_num)).2.2.1⟩
